import Mathlib

/-!
Shallow embedding of the `pvss_python` repository (files `pvss.py` and `cpni.py`).

Modelling conventions:
* The prime-order group `Gq` is modelled as an arbitrary additive commutative group `M`
  equipped with a `Module (ZMod p) M` structure (`p` the group order); `petlib` scalar
  multiplication `Bn * EcPt` is `•` after casting the unbounded integer into `ZMod p`,
  which is exactly what a group of exponent `p` does implicitly.
* `petlib.bn.Bn` values that the source keeps reduced mod `p` (shares, `w`, `r`) are
  `ZMod p`; values the source keeps as raw unbounded integers (participant indices,
  SHA-256 digests) are `ℤ`.
* `sha256(encode [...])` is an external collaborator (hashlib + petlib.pack); it is
  modelled by an abstract parameter `digest : List (HashInput M) → ℤ` taking the ordered
  sequence of encoded arguments to the digest read as a non-negative integer
  (`Bn.from_binary` of 32 bytes, hence a value in `[0, 2^256)` for the real function).
* A Python `assert` failure or a raised `petlib` exception (`mod_inverse` with
  non-invertible argument) is modelled as `Option.none`.
-/

/-- Argument shape accepted by `cpni.hash`: the source passes either single group
elements or lists of group elements to `petlib.pack.encode`. -/
inductive HashInput (M : Type) where
  | elem : M → HashInput M
  | list : List M → HashInput M
deriving DecidableEq

/-- The batched DLEQ proof: the source stores it as the dict
`{'c': c, 'r_list': r_list, 'a_1_list': a_1_list, 'a_2_list': a_2_list}`
built in `cpni.DLEQ_prove_list` (`src/cpni.py` lines 56-78). -/
structure BatchDLEQProof (p : ℕ) (M : Type) where
  c : ℤ
  r_list : List (ZMod p)
  a_1_list : List M
  a_2_list : List M
deriving DecidableEq

/-- The dealer's public bundle: the dict `{'C_list': commitments, 'Y_list': enc_shares}`
built in `pvss.gen_proof` (`src/pvss.py` line 32). -/
structure PublicBundle (M : Type) where
  C_list : List M
  Y_list : List M
deriving DecidableEq

namespace cpni

/-- `cpni.hash` (`src/cpni.py` lines 81-86):
`sha256(encode([h_1, h_2, a_1, a_2])).digest()` converted by `Bn.from_binary`.
The group order parameter `q` (named `p` in the source) is accepted and ignored:
the source performs no reduction of the digest. -/
def hash {M : Type} (digest : List (HashInput M) → ℤ) (q : ℕ)
    (h_1 h_2 a_1 a_2 : HashInput M) : ℤ :=
  let _ := q
  digest [h_1, h_2, a_1, a_2]

variable (p : ℕ) {M : Type} [AddCommGroup M] [Module (ZMod p) M]
variable (digest : List (HashInput M) → ℤ)

/-- `cpni.__get_X_i` (`src/cpni.py` lines 13-23): `X_i = Σ_j (i^j) * C_j` where `i^j`
is an unbounded integer power of the `Bn` index.  The source materialises the list
`elements` and sums it starting from `elements[0]` (raising `IndexError` on an empty
commitment list, a case no caller reaches since every polynomial has `k ≥ 1`
coefficients); on non-empty input this is the sum below. -/
def get_X_i (C_list : List M) (i : ℤ) : M :=
  ((C_list.zip (List.range C_list.length)).map fun Cj =>
    ((i ^ Cj.2 : ℤ) : ZMod p) • Cj.1).sum

/-- `cpni.get_X_i_list` (`src/cpni.py` lines 7-11): `[__get_X_i(commitments, i) for i
in range(1, n+1)]`. -/
def get_X_i_list (C_list : List M) (n : ℕ) : List M :=
  (List.range n).map fun j : ℕ => get_X_i p C_list ((j : ℤ) + 1)

/-- `cpni.__DLEQ_prover_calc_a` (`src/cpni.py` lines 40-46). -/
def DLEQ_prover_calc_a (g_1 g_2 : M) (w : ZMod p) : M × M :=
  (w • g_1, w • g_2)

/-- `cpni.DLEQ_verifyer_calc_a` (`src/cpni.py` lines 49-55):
`a_1 = r*g_1 + c*h_1`, `a_2 = r*g_2 + c*h_2` with the raw digest `c` acting on the
group through implicit reduction mod `p`. -/
def DLEQ_verifyer_calc_a (r : ZMod p) (c : ℤ) (g_1 h_1 g_2 h_2 : M) : M × M :=
  (r • g_1 + (c : ZMod p) • h_1, r • g_2 + (c : ZMod p) • h_2)

/-- `cpni.__DLEQ_calc_r` (`src/cpni.py` lines 99-104): `r = (w - c * alpha) % p`. -/
def DLEQ_calc_r (w alpha : ZMod p) (c : ℤ) : ZMod p :=
  w - (c : ZMod p) * alpha

/-- `cpni.__DLEQ_calc_all_r` (`src/cpni.py` lines 89-96). -/
def DLEQ_calc_all_r (shares_list w_list : List (ZMod p)) (c : ℤ) : List (ZMod p) :=
  (shares_list.zip w_list).map fun aw => DLEQ_calc_r p aw.2 aw.1 c

/-- `cpni.DLEQ_prove` (`src/cpni.py` lines 26-37); the sampled scalar `w` is passed
explicitly.  Returns the tuple `(c, r, a_1, a_2)`. -/
def DLEQ_prove (g_1 g_2 h_1 h_2 : M) (x_i w : ZMod p) : ℤ × ZMod p × M × M :=
  let a := DLEQ_prover_calc_a p g_1 g_2 w
  let c := hash digest p (.elem h_1) (.elem h_2) (.elem a.1) (.elem a.2)
  let r := DLEQ_calc_r p w x_i c
  (c, r, a.1, a.2)

/-- `cpni.DLEQ_prove_list` (`src/cpni.py` lines 56-78); the sampled scalars `w_list`
(which the source draws there with length `n = len(Y_list)`) are passed explicitly. -/
def DLEQ_prove_list (g : M) (C_list Y_list y_list : List M)
    (shares_list w_list : List (ZMod p)) : BatchDLEQProof p M :=
  let n := Y_list.length
  let X_list := get_X_i_list p C_list n
  let a_1_list := w_list.map fun w => w • g
  let a_2_list := (w_list.zip y_list).map fun wy => wy.1 • wy.2
  let c := hash digest p (.list X_list) (.list Y_list) (.list a_1_list) (.list a_2_list)
  let r_list := DLEQ_calc_all_r p shares_list w_list c
  ⟨c, r_list, a_1_list, a_2_list⟩

variable [DecidableEq M]

/-- `cpni.DLEQ_verify` (`src/cpni.py` lines 140-148). -/
def DLEQ_verify (g_1 g_2 h_1 h_2 : M) (pf : ℤ × ZMod p × M × M) : Bool :=
  let a_new := DLEQ_verifyer_calc_a p pf.2.1 pf.1 g_1 h_1 g_2 h_2
  if pf.2.2.1 = a_new.1 ∧ pf.2.2.2 = a_new.2 then true else false

/-- `cpni.DLEQ_verify_single` (`src/cpni.py` lines 129-137). -/
def DLEQ_verify_single (g_1 g_2 h_1 h_2 : M) (pf : ℤ × ZMod p × M × M) : Bool :=
  let c := hash digest p (.elem h_1) (.elem h_2) (.elem pf.2.2.1) (.elem pf.2.2.2)
  if c ≠ pf.1 then false else DLEQ_verify p g_1 g_2 h_1 h_2 pf

/-- `cpni.DLEQ_verify_list` (`src/cpni.py` lines 106-126): recomputes `X_list` and the
challenge, rejects on challenge mismatch, then checks every zipped relation (Python
`zip` over six lists truncates to the shortest, as the nested `List.zip` does). -/
def DLEQ_verify_list (g : M) (y_list C_list Y_list : List M)
    (pf : BatchDLEQProof p M) : Bool :=
  let n := pf.r_list.length
  let X_list := get_X_i_list p C_list n
  let c := hash digest p (.list X_list) (.list Y_list)
    (.list pf.a_1_list) (.list pf.a_2_list)
  if pf.c ≠ c then false
  else
    (((((y_list.zip X_list).zip Y_list).zip pf.r_list).zip pf.a_1_list).zip
      pf.a_2_list).all fun t =>
        DLEQ_verify p g t.1.1.1.1.1 t.1.1.1.1.2 t.1.1.1.2
          (c, t.1.1.2, t.1.2, t.2)

end cpni

namespace pvss

variable (p : ℕ) {M : Type} [AddCommGroup M] [Module (ZMod p) M]
variable (digest : List (HashInput M) → ℤ)

/-- `pvss.gen_polynomial` (`src/pvss.py` lines 47-53): `px = [secret] + px_rand` where
`px_rand = [p.random() for i in range(k-1)]`; the sampled randomness is passed
explicitly (it has length `k - 1`, which is empty whenever `k ≤ 1`).  The source
performs no validation of `k` whatsoever. -/
def gen_polynomial (secret : ZMod p) (px_rand : List (ZMod p)) : List (ZMod p) :=
  secret :: px_rand

/-- `pvss.__calc_share` (`src/pvss.py` lines 63-71): accumulation
`result = (result + alpha * x**j) % p` over `zip(px, range(k))` with `k = len(px)`
(the function asserts `len(px) == k`); `x**j` is an unbounded integer power.
In `ZMod p` the step-wise reduction is the plain sum below. -/
def calc_share (px : List (ZMod p)) (x : ℤ) : ZMod p :=
  ((px.zip (List.range px.length)).map fun aj =>
    aj.1 * ((x ^ aj.2 : ℤ) : ZMod p)).sum

/-- `pvss.calc_shares` (`src/pvss.py` lines 56-60):
`[__calc_share(px, k, Bn(i), p) for i in range(1, n+1)]`. -/
def calc_shares (px : List (ZMod p)) (n : ℕ) : List (ZMod p) :=
  (List.range n).map fun i : ℕ => calc_share p px ((i : ℤ) + 1)

/-- `pvss.get_commitments` (`src/pvss.py` lines 74-78): `[p_i * h for p_i in px]`. -/
def get_commitments (h : M) (px : List (ZMod p)) : List M :=
  px.map fun p_i => p_i • h

/-- `pvss.__get_encrypted_shares` (`src/pvss.py` lines 81-88):
`[shares[i] * y_i for (y_i, i) in zip(pub_keys, range(len(pub_keys)))]` after
asserting `len(pub_keys) == len(shares)`; under that assertion (which holds at the
only call site) the indexed comprehension is the `zipWith` below. -/
def get_encrypted_shares (pub_keys : List M) (shares : List (ZMod p)) : List M :=
  List.zipWith (fun s y => s • y) shares pub_keys

/-- `pvss.gen_proof` (`src/pvss.py` lines 20-44).  The two eager `assert`s
(`n > k`, `len(pub_keys) == n`) and the five trailing `# Debug` `assert`s
(`len(px) == k`, `len(commitments) == k`, `len(shares_list) == n`,
`shares_list[0] != secret`, `len(enc_shares) == n`) are modelled as `Option`
guards: a failed Python `assert` raises and the function returns nothing.
The dealer-sampled randomness (`px_rand` inside `gen_polynomial`, `w_list` inside
`DLEQ_prove_list`) is passed explicitly. -/
def gen_proof (h : M) (k n : ℕ) (secret : ZMod p) (pub_keys : List M)
    (px_rand w_list : List (ZMod p)) :
    Option (PublicBundle M × BatchDLEQProof p M) :=
  if n > k ∧ pub_keys.length = n then
    let px := gen_polynomial p secret px_rand
    let commitments := get_commitments p h px
    let shares_list := calc_shares p px n
    let enc_shares := get_encrypted_shares p pub_keys shares_list
    let pub : PublicBundle M := ⟨commitments, enc_shares⟩
    let pf := cpni.DLEQ_prove_list p digest h commitments enc_shares pub_keys
      shares_list w_list
    if px.length = k ∧ commitments.length = k ∧ shares_list.length = n ∧
        shares_list.getD 0 0 ≠ secret ∧ enc_shares.length = n then
      some (pub, pf)
    else none
  else none

/-- `pvss.__lagrange` (`src/pvss.py` lines 103-113): iterates over `index_list`
multiplying `top` by `j` and `bottom` by `(j - i)` for every `j != i`, then returns
`top.mod_mul(bottom.mod_inverse(p), p)`.  `Bn.mod_inverse` raises (petlib wraps the
OpenSSL failure) exactly when `gcd(bottom, p) ≠ 1`, modelled by the guard below. -/
def lagrange (i : ℤ) (index_list : List ℤ) : Option (ZMod p) :=
  let top : ℤ := (index_list.filter fun j => j ≠ i).prod
  let bottom : ℤ := ((index_list.filter fun j => j ≠ i).map fun j => j - i).prod
  if Nat.gcd ((bottom : ZMod p)).val p = 1 then
    some ((top : ZMod p) * ((bottom : ZMod p))⁻¹)
  else none

/-- `pvss.decode` (`src/pvss.py` lines 91-100): asserts the two lists have equal
length, then computes `Σ_i __lagrange(index_list[i], index_list, p) * S_list[i]`,
propagating any `__lagrange` failure (the source starts from the position-0 term and
adds the rest; on the empty list it would raise `IndexError`, a case no claim with
`t ≥ 1` reaches, where this model returns `some 0`). -/
def decode (S_list : List M) (index_list : List ℤ) : Option M :=
  if S_list.length = index_list.length then
    (index_list.mapM fun i => lagrange p i index_list).map fun coeffs =>
      (List.zipWith (fun c Si => c • Si) coeffs S_list).sum
  else none

/-- `pvss.participant_decrypt` (`src/pvss.py` lines 141-146):
`x_i.mod_inverse(p) * Y_i`; `mod_inverse` raises for a non-invertible `x_i`, a case
every claim excludes by hypothesis, so the total `ZMod p` inverse is used. -/
def participant_decrypt (x_i : ZMod p) (Y_i : M) : M :=
  x_i⁻¹ • Y_i

/-- `pvss.participant_decrypt_and_prove` (`src/pvss.py` lines 151-161): decrypts and
proves with `cpni.DLEQ_prove(params, g0, S_i, y_i, Y_i, x_i)`, i.e. bases
`(g_1, g_2) = (g0, S_i)` and targets `(h_1, h_2) = (y_i, Y_i)`; the sampled `w` is
passed explicitly. -/
def participant_decrypt_and_prove (g0 : M) (x_i : ZMod p) (Y_i : M) (w : ZMod p) :
    M × (ℤ × ZMod p × M × M) :=
  let S_i := participant_decrypt p x_i Y_i
  let y_i := x_i • g0
  (S_i, cpni.DLEQ_prove p digest g0 S_i y_i Y_i x_i w)

variable [DecidableEq M]

/-- `pvss.verify_correct_decryption` (`src/pvss.py` lines 116-120):
`cpni.DLEQ_verify_single(p, G, S_i, pub_key, Y_i, decrypt_proof)`. -/
def verify_correct_decryption (S_i Y_i : M) (decrypt_proof : ℤ × ZMod p × M × M)
    (pub_key : M) (G : M) : Bool :=
  cpni.DLEQ_verify_single p digest G S_i pub_key Y_i decrypt_proof

/-- `pvss.batch_verify_correct_decryption` (`src/pvss.py` lines 123-130): loops over
`zip(proved_decryptions, Y_list, pub_keys)` (truncating to the shortest list, as the
nested `List.zip` does) and returns `False` on the first entry whose verification is
`False`, else `True` - i.e. the conjunction below. -/
def batch_verify_correct_decryption
    (proved_decryptions : List (M × (ℤ × ZMod p × M × M)))
    (Y_list pub_keys : List M) (G : M) : Bool :=
  (proved_decryptions.zip (Y_list.zip pub_keys)).all fun t =>
    verify_correct_decryption p digest t.1.1 t.2.1 t.1.2 t.2.2 G

end pvss

/-! ### Helper lemmas -/

/-- Summing `f` over a list zipped with its index range equals the indexed
`Finset.range` sum (with `getD` lookups). -/
theorem sum_map_zip_range {α β : Type} [AddCommMonoid β] (l : List α) (d : α)
    (f : α → ℕ → β) :
    ((l.zip (List.range l.length)).map fun aj => f aj.1 aj.2).sum =
      ∑ j ∈ Finset.range l.length, f (l.getD j d) j := by
  induction l generalizing f with
  | nil => simp
  | cons a l ih =>
    rw [List.length_cons, List.range_succ_eq_map, List.zip_cons_cons, List.map_cons,
      List.sum_cons, List.zip_map_right, List.map_map, Finset.sum_range_succ']
    have hmap : List.map ((fun aj => f aj.1 aj.2) ∘ Prod.map id Nat.succ)
        (l.zip (List.range l.length)) =
        List.map (fun aj => f aj.1 (aj.2 + 1)) (l.zip (List.range l.length)) := by
      apply List.map_congr_left
      intro x _
      rfl
    rw [hmap, ih fun x j => f x (j + 1)]
    simp only [List.getD_cons_succ, List.getD_cons_zero]
    rw [add_comm]

/-- Pulling a common `•`-target out of a list sum. -/
theorem sum_map_smul_right {α R N : Type} [Semiring R] [AddCommMonoid N] [Module R N]
    (l : List α) (g : α → R) (x : N) :
    (l.map fun a => g a • x).sum = (l.map g).sum • x := by
  induction l with
  | nil => simp
  | cons a l ih => simp [ih, add_smul]

/-- `cpni.__get_X_i` applied to the commitments of `px` is the commitment of the
evaluation of `px`: the homomorphic-evaluation identity underlying C2 and the
batched DLEQ relations. -/
theorem get_X_i_get_commitments (p : ℕ) {M : Type} [AddCommGroup M]
    [Module (ZMod p) M] (h : M) (px : List (ZMod p)) (i : ℤ) :
    cpni.get_X_i p (pvss.get_commitments p h px) i = pvss.calc_share p px i • h := by
  unfold cpni.get_X_i pvss.get_commitments pvss.calc_share
  rw [List.length_map, List.zip_map_left, List.map_map, ← sum_map_smul_right]
  congr 1
  apply List.map_congr_left
  intro aj _
  simp only [Function.comp, Prod.map, id]
  rw [smul_smul, mul_comm]

/-! ### Claim C10 -/

/-- Claim C10: the challenge hash does not depend on its group-order parameter:
`cpni.hash` forwards only the encoded element arguments to the digest, so two runs
with different orders `p1`, `p2` and identical element arguments return the same
challenge. -/
theorem hash_independent_of_group_order {M : Type} (digest : List (HashInput M) → ℤ)
    (p1 p2 : ℕ) (h1 h2 a1 a2 : HashInput M) :
    cpni.hash digest p1 h1 h2 a1 a2 = cpni.hash digest p2 h1 h2 a1 a2 := rfl

/-! ### Claim C5 -/

/-- Claim C5 counterexample: `cpni.hash` performs no reduction mod `p`.  With a
digest function respecting the external 256-bit contract (constant `7 < 2^256`) and
group order `p = 3`, the returned value is `7`, so `0 ≤ hash < p` fails. -/
theorem hash_not_reduced_mod_p :
    ¬ (0 ≤ cpni.hash (M := ZMod 2) (fun _ => 7) 3
          (.elem 0) (.elem 0) (.elem 0) (.elem 0) ∧
       cpni.hash (M := ZMod 2) (fun _ => 7) 3
          (.elem 0) (.elem 0) (.elem 0) (.elem 0) < 3) := by decide

/-- Claim C5 amended: `cpni.hash` returns the 256-bit digest of the encoded inputs
unchanged - a value in `[0, 2^256)` whenever the digest respects its 256-bit range -
with no reduction mod `p`; the group-order argument is ignored. -/
theorem hash_returns_raw_digest {M : Type} (digest : List (HashInput M) → ℤ)
    (q : ℕ) (h1 h2 a1 a2 : HashInput M)
    (hd : ∀ x, 0 ≤ digest x ∧ digest x < 2 ^ 256) :
    0 ≤ cpni.hash digest q h1 h2 a1 a2 ∧
      cpni.hash digest q h1 h2 a1 a2 < 2 ^ 256 ∧
      cpni.hash digest q h1 h2 a1 a2 = digest [h1, h2, a1, a2] :=
  ⟨(hd _).1, (hd _).2, rfl⟩

/-- Witness for the amended C5 theorem at a concrete digest and inputs. -/
theorem hash_returns_raw_digest_witness :
    0 ≤ cpni.hash (M := ZMod 2) (fun _ => 0) 5 (.elem 1) (.elem 0) (.elem 1) (.elem 0) ∧
      cpni.hash (M := ZMod 2) (fun _ => 0) 5 (.elem 1) (.elem 0) (.elem 1) (.elem 0)
        < 2 ^ 256 ∧
      cpni.hash (M := ZMod 2) (fun _ => 0) 5 (.elem 1) (.elem 0) (.elem 1) (.elem 0)
        = 0 :=
  hash_returns_raw_digest (fun _ => 0) 5 (.elem 1) (.elem 0) (.elem 1) (.elem 0)
    (fun _ => ⟨le_rfl, by norm_num⟩)

/-! ### Claim C6 -/

/-- Claim C6 counterexample: at threshold `t = 0` (so `range(t-1)` is empty and the
sampled randomness is `[]`), `pvss.gen_polynomial` raises nothing and returns the
one-element polynomial `[secret]` - there is no `InvalidParameters` failure path in
the source, and the returned length is `1`, not `t = 0`. -/
theorem gen_polynomial_t_zero_returns_value :
    pvss.gen_polynomial 5 (3 : ZMod 5) [] = [3] ∧
      (pvss.gen_polynomial 5 (3 : ZMod 5) []).length = 1 := by decide

/-- Claim C6 amended: polynomial generation prepends the secret to the `t - 1`
sampled scalars, so for `t ≥ 1` the result has length `t` and first coefficient
`secret`; for `t < 1` the source performs no validation and still returns the
one-element polynomial `[secret]` (the randomness `range(t-1)` is empty) instead of
failing with `InvalidParameters`. -/
theorem gen_polynomial_spec (p : ℕ) (t : ℕ) (secret : ZMod p)
    (px_rand : List (ZMod p)) (hlen : px_rand.length = t - 1) :
    (1 ≤ t → (pvss.gen_polynomial p secret px_rand).length = t ∧
      (pvss.gen_polynomial p secret px_rand).headI = secret) ∧
    (t < 1 → pvss.gen_polynomial p secret px_rand = [secret]) := by
  constructor
  · intro ht
    refine ⟨?_, rfl⟩
    simp only [pvss.gen_polynomial, List.length_cons, hlen]
    omega
  · intro ht
    have hz : px_rand.length = 0 := by omega
    rw [List.length_eq_zero] at hz
    subst hz
    rfl

/-- Witness for the amended C6 theorem at `t = 2`. -/
theorem gen_polynomial_spec_witness :
    (pvss.gen_polynomial 5 (3 : ZMod 5) [4]).length = 2 ∧
      (pvss.gen_polynomial 5 (3 : ZMod 5) [4]).headI = 3 :=
  (gen_polynomial_spec 5 2 3 [4] (by decide)).1 (by decide)

/-! ### Claim C7 -/

/-- Claim C7: `pvss.gen_proof` enforces the strict precondition `n > t`: it fails
(the Python `assert n > k` raises) whenever `n ≤ k` - in particular for `n = k` -
and it returns a bundle only when `n > k` and `len(pub_keys) = n`. -/
theorem gen_proof_requires_n_gt_t (p : ℕ) {M : Type} [AddCommGroup M]
    [Module (ZMod p) M] [DecidableEq M] (digest : List (HashInput M) → ℤ)
    (h : M) (k n : ℕ) (secret : ZMod p) (pub_keys : List M)
    (px_rand w_list : List (ZMod p)) :
    (n ≤ k → pvss.gen_proof p digest h k n secret pub_keys px_rand w_list = none) ∧
    (∀ out, pvss.gen_proof p digest h k n secret pub_keys px_rand w_list = some out →
      k < n ∧ pub_keys.length = n) := by
  constructor
  · intro hnk
    unfold pvss.gen_proof
    rw [if_neg]
    intro hc
    exact absurd hc.1 (not_lt.mpr hnk)
  · intro out hout
    unfold pvss.gen_proof at hout
    by_cases hc : n > k ∧ pub_keys.length = n
    · exact ⟨hc.1, hc.2⟩
    · rw [if_neg hc] at hout
      exact absurd hout (Option.some_ne_none out).symm

/-- Witness for C7: the degenerate case `n = k = 2` is rejected. -/
theorem gen_proof_requires_n_gt_t_witness :
    pvss.gen_proof 5 (fun _ => 0) (1 : ZMod 5) 2 2 0 [1, 1] [4] [0, 0] = none :=
  (gen_proof_requires_n_gt_t 5 (fun _ => 0) (1 : ZMod 5) 2 2 0 [1, 1] [4] [0, 0]).1
    (le_refl 2)

/-! ### Claim C2 -/

/-- Claim C2: for every polynomial `px` of length `k ≥ 1` over `Z_p`, every generator
`H` and every index `i`, the homomorphic evaluation `__get_X_i(get_commitments(H, px), i)`
(with `i^j` an ordinary unbounded integer power) equals `__calc_share(px, k, i, p) * H`,
the commitment of the `i`-th share. -/
theorem get_X_i_eq_share_commitment (p : ℕ) {M : Type} [AddCommGroup M]
    [Module (ZMod p) M] (H : M) (px : List (ZMod p)) (hk : 1 ≤ px.length) (i : ℤ) :
    cpni.get_X_i p (pvss.get_commitments p H px) i = pvss.calc_share p px i • H :=
  get_X_i_get_commitments p H px i

/-- Witness for C2 at `p = 7`, `px = [2, 4, 1]`, `H = 3`, `i = 5`. -/
theorem get_X_i_eq_share_commitment_witness :
    cpni.get_X_i 7 (pvss.get_commitments 7 (3 : ZMod 7) [2, 4, 1]) 5 =
      pvss.calc_share 7 [2, 4, 1] 5 • (3 : ZMod 7) :=
  get_X_i_eq_share_commitment 7 (3 : ZMod 7) [2, 4, 1] (by decide) 5

/-! ### Claim C9 -/

/-- Claim C9: `pvss.batch_verify_correct_decryption` fails closed: it returns `true`
iff every zipped entry passes `verify_correct_decryption`, and hence returns `false`
whenever at least one zipped entry fails. -/
theorem batch_verify_fails_closed (p : ℕ) {M : Type} [AddCommGroup M]
    [Module (ZMod p) M] [DecidableEq M] (digest : List (HashInput M) → ℤ)
    (proved_decryptions : List (M × (ℤ × ZMod p × M × M)))
    (Y_list pub_keys : List M) (G : M) :
    (pvss.batch_verify_correct_decryption p digest proved_decryptions Y_list
        pub_keys G = true ↔
      ∀ t ∈ proved_decryptions.zip (Y_list.zip pub_keys),
        pvss.verify_correct_decryption p digest t.1.1 t.2.1 t.1.2 t.2.2 G = true) ∧
    ((∃ t ∈ proved_decryptions.zip (Y_list.zip pub_keys),
        pvss.verify_correct_decryption p digest t.1.1 t.2.1 t.1.2 t.2.2 G = false) →
      pvss.batch_verify_correct_decryption p digest proved_decryptions Y_list
        pub_keys G = false) := by
  have hall : pvss.batch_verify_correct_decryption p digest proved_decryptions
      Y_list pub_keys G = true ↔
      ∀ t ∈ proved_decryptions.zip (Y_list.zip pub_keys),
        pvss.verify_correct_decryption p digest t.1.1 t.2.1 t.1.2 t.2.2 G = true := by
    unfold pvss.batch_verify_correct_decryption
    rw [List.all_eq_true]
  refine ⟨hall, ?_⟩
  rintro ⟨t, htmem, htf⟩
  rw [Bool.eq_false_iff]
  intro htrue
  rw [hall.mp htrue t htmem] at htf
  cases htf

/-- Witness for C9: a batch whose single entry fails verification (its claimed
challenge `1` differs from the recomputed digest `0`) is rejected as a whole. -/
theorem batch_verify_fails_closed_witness :
    pvss.batch_verify_correct_decryption 5 (fun _ => 0)
      [((0 : ZMod 5), ((1 : ℤ), (0 : ZMod 5), (0 : ZMod 5), (0 : ZMod 5)))]
      [0] [0] 1 = false :=
  (batch_verify_fails_closed 5 (fun _ => 0)
      [((0 : ZMod 5), ((1 : ℤ), (0 : ZMod 5), (0 : ZMod 5), (0 : ZMod 5)))]
      [0] [0] 1).2
    ⟨(((0 : ZMod 5), ((1 : ℤ), (0 : ZMod 5), (0 : ZMod 5), (0 : ZMod 5))),
        ((0 : ZMod 5), (0 : ZMod 5))), by decide, by decide⟩

/-! ### Claim C3 -/

/-- Claim C3 failing case: for threshold `t = k = 1` the dealer can never produce a
bundle.  With `k = 1` the polynomial is `[secret]`, so the first share
`p(1) = secret` and the source's own `# Debug` assertion
`assert shares_list[0] != secret` (`src/pvss.py` line 41) fails unconditionally:
`gen_proof` raises `AssertionError` for every `n`, key list and randomness, instead
of returning an honestly generated bundle as the completeness claim requires. -/
theorem gen_proof_t_one_always_fails (p : ℕ) {M : Type} [AddCommGroup M]
    [Module (ZMod p) M] [DecidableEq M] (digest : List (HashInput M) → ℤ)
    (h : M) (n : ℕ) (secret : ZMod p) (pub_keys : List M)
    (px_rand w_list : List (ZMod p)) :
    pvss.gen_proof p digest h 1 n secret pub_keys px_rand w_list = none := by
  unfold pvss.gen_proof
  by_cases hc : n > 1 ∧ pub_keys.length = n
  · rw [if_pos hc, if_neg]
    rintro ⟨hpx, -, -, hne, -⟩
    have hz : px_rand = [] := by
      rw [← List.length_eq_zero]
      simpa [pvss.gen_polynomial] using hpx
    subst hz
    apply hne
    obtain ⟨m, rfl⟩ : ∃ m, n = m + 1 := ⟨n - 1, by omega⟩
    rw [pvss.calc_shares, List.range_succ_eq_map, List.map_cons, List.getD_cons_zero]
    have h1 : List.range 1 = [0] := rfl
    simp [pvss.calc_share, pvss.gen_polynomial, h1]
  · rw [if_neg hc]

/-! ### Batch DLEQ completeness (supporting lemmas for C3)

The claim's completeness property does hold for every bundle the dealer actually
emits: the only obstruction is the `# Debug` assertion analysed above. -/

/-- The Chaum-Pedersen response equation: with `r = w - c·s`,
`r • u + c • (s • u) = w • u`. -/
theorem smul_resp_eq (p : ℕ) {M : Type} [AddCommGroup M] [Module (ZMod p) M]
    (w s : ZMod p) (cz : ℤ) (u : M) :
    (w - (cz : ZMod p) * s) • u + (cz : ZMod p) • (s • u) = w • u := by
  rw [sub_smul, smul_smul, sub_add_cancel]

/-- Batch DLEQ completeness: for every polynomial, key list and dealer randomness of
the right lengths, the proof built by `cpni.DLEQ_prove_list` over the commitments,
encrypted shares and shares of that polynomial passes `cpni.DLEQ_verify_list`. -/
theorem DLEQ_verify_list_complete (p : ℕ) {M : Type} [AddCommGroup M]
    [Module (ZMod p) M] [DecidableEq M] (digest : List (HashInput M) → ℤ)
    (g : M) (px : List (ZMod p)) (y_list : List M) (w_list : List (ZMod p)) (n : ℕ)
    (hy : y_list.length = n) (hw : w_list.length = n) :
    cpni.DLEQ_verify_list p digest g y_list (pvss.get_commitments p g px)
      (pvss.get_encrypted_shares p y_list (pvss.calc_shares p px n))
      (cpni.DLEQ_prove_list p digest g (pvss.get_commitments p g px)
        (pvss.get_encrypted_shares p y_list (pvss.calc_shares p px n)) y_list
        (pvss.calc_shares p px n) w_list) = true := by
  have hS : (pvss.calc_shares p px n).length = n := by simp [pvss.calc_shares]
  have hY : (pvss.get_encrypted_shares p y_list (pvss.calc_shares p px n)).length
      = n := by
    simp [pvss.get_encrypted_shares, hS, hy]
  unfold cpni.DLEQ_verify_list cpni.DLEQ_prove_list cpni.DLEQ_calc_all_r
  simp only [hY, List.length_map, List.length_zip, hS, hw, min_self]
  rw [if_neg fun hne => hne rfl]
  rw [List.all_eq_true]
  intro t ht
  obtain ⟨i, hi, rfl⟩ := List.mem_iff_getElem.mp ht
  simp only [List.length_zip, List.length_map, List.length_range, hS, hw, hY, hy,
    min_self, cpni.get_X_i_list, pvss.calc_shares, pvss.get_encrypted_shares] at hi
  simp only [cpni.get_X_i_list, pvss.calc_shares, pvss.get_encrypted_shares,
    List.getElem_zip, List.getElem_zipWith, List.getElem_map, List.getElem_range]
  rw [get_X_i_get_commitments p g px ((i : ℤ) + 1)]
  unfold cpni.DLEQ_verify cpni.DLEQ_verifyer_calc_a cpni.DLEQ_calc_r
  simp only []
  split
  · rfl
  · next hcond =>
      exact absurd ⟨(smul_resp_eq p _ _ _ _).symm, (smul_resp_eq p _ _ _ _).symm⟩
        hcond

/-- Every bundle `pvss.gen_proof` actually returns passes batch DLEQ verification:
completeness fails only when `gen_proof` itself fails (in particular through the
`t = 1` debug assertion of C3). -/
theorem gen_proof_bundle_always_verifies (p : ℕ) {M : Type} [AddCommGroup M]
    [Module (ZMod p) M] [DecidableEq M] (digest : List (HashInput M) → ℤ)
    (h : M) (k n : ℕ) (secret : ZMod p) (pub_keys : List M)
    (px_rand w_list : List (ZMod p)) (hw : w_list.length = n)
    (out : PublicBundle M × BatchDLEQProof p M)
    (hout : pvss.gen_proof p digest h k n secret pub_keys px_rand w_list = some out) :
    cpni.DLEQ_verify_list p digest h pub_keys out.1.C_list out.1.Y_list out.2
      = true := by
  unfold pvss.gen_proof at hout
  by_cases hc : n > k ∧ pub_keys.length = n
  · rw [if_pos hc] at hout
    simp only [] at hout
    split at hout
    · obtain rfl := Option.some.inj hout
      exact DLEQ_verify_list_complete p digest h
        (pvss.gen_polynomial p secret px_rand) pub_keys w_list n hc.2 hw
    · cases hout
  · rw [if_neg hc] at hout
    cases hout

/-! ### Claim C4 -/

/-- Claim C4: for every invertible private key `x_i` and encrypted share `Y_i`, the
pair `(S_i, proof)` produced by `pvss.participant_decrypt_and_prove` passes
`pvss.verify_correct_decryption` against the matching public key `y_i = x_i • G`:
honest decryption proofs always verify. -/
theorem honest_decryption_verifies (p : ℕ) [Fact p.Prime] {M : Type}
    [AddCommGroup M] [Module (ZMod p) M] [DecidableEq M]
    (digest : List (HashInput M) → ℤ) (G : M) (x_i : ZMod p) (hx : x_i ≠ 0)
    (Y_i : M) (w : ZMod p) :
    pvss.verify_correct_decryption p digest
      (pvss.participant_decrypt_and_prove p digest G x_i Y_i w).1 Y_i
      (pvss.participant_decrypt_and_prove p digest G x_i Y_i w).2
      (x_i • G) G = true := by
  have hxx : x_i * x_i⁻¹ = 1 := mul_inv_cancel₀ hx
  show (if cpni.hash digest p (.elem (x_i • G)) (.elem Y_i) (.elem (w • G))
          (.elem (w • (x_i⁻¹ • Y_i))) ≠
        cpni.hash digest p (.elem (x_i • G)) (.elem Y_i) (.elem (w • G))
          (.elem (w • (x_i⁻¹ • Y_i))) then false
      else cpni.DLEQ_verify p G (x_i⁻¹ • Y_i) (x_i • G) Y_i
        (cpni.hash digest p (.elem (x_i • G)) (.elem Y_i) (.elem (w • G))
            (.elem (w • (x_i⁻¹ • Y_i))),
         w - (cpni.hash digest p (.elem (x_i • G)) (.elem Y_i) (.elem (w • G))
            (.elem (w • (x_i⁻¹ • Y_i))) : ZMod p) * x_i,
         w • G, w • (x_i⁻¹ • Y_i))) = true
  rw [if_neg fun hne => hne rfl]
  generalize cpni.hash digest p (HashInput.elem (x_i • G)) (HashInput.elem Y_i)
    (HashInput.elem (w • G)) (HashInput.elem (w • (x_i⁻¹ • Y_i))) = c0
  have eq1 : w • G = (w - (c0 : ZMod p) * x_i) • G + (c0 : ZMod p) • (x_i • G) := by
    rw [sub_smul, smul_smul, sub_add_cancel]
  have key : ((c0 : ZMod p) * x_i) • (x_i⁻¹ • Y_i) = (c0 : ZMod p) • Y_i := by
    rw [smul_smul, mul_assoc, hxx, mul_one]
  have eq2 : w • (x_i⁻¹ • Y_i) =
      (w - (c0 : ZMod p) * x_i) • (x_i⁻¹ • Y_i) + (c0 : ZMod p) • Y_i := by
    rw [sub_smul, key, sub_add_cancel]
  show (if (w • G = (w - (c0 : ZMod p) * x_i) • G + (c0 : ZMod p) • (x_i • G) ∧
        w • (x_i⁻¹ • Y_i) =
          (w - (c0 : ZMod p) * x_i) • (x_i⁻¹ • Y_i) + (c0 : ZMod p) • Y_i)
      then true else false) = true
  rw [if_pos ⟨eq1, eq2⟩]

/-- Witness for C4 at `p = 5`, `G = 2`, `x_i = 3`, `Y_i = 4`, `w = 1` and a constant
digest. -/
theorem honest_decryption_verifies_witness :
    pvss.verify_correct_decryption 5 (fun _ => 9)
      (pvss.participant_decrypt_and_prove 5 (fun _ => 9) (2 : ZMod 5) 3 4 1).1 4
      (pvss.participant_decrypt_and_prove 5 (fun _ => 9) (2 : ZMod 5) 3 4 1).2
      ((3 : ZMod 5) • (2 : ZMod 5)) 2 = true := by
  have hx : (3 : ZMod 5) ≠ 0 := by decide
  have : Fact (Nat.Prime 5) := ⟨by norm_num⟩
  exact honest_decryption_verifies 5 (M := ZMod 5) (fun _ => 9) 2 3 hx 4 1

/-! ### Claim C8 -/

/-- For prime `p`, petlib's `mod_inverse(p)` succeeds on a value `v` (reduced mod `p`)
iff `v ≠ 0`: `gcd(v, p) = 1 ↔ v ≠ 0` in `ZMod p`. -/
theorem gcd_val_prime_eq_one_iff (p : ℕ) [hp : Fact p.Prime] (v : ZMod p) :
    Nat.gcd v.val p = 1 ↔ v ≠ 0 := by
  haveI : NeZero p := ⟨hp.out.ne_zero⟩
  constructor
  · intro hg hv
    subst hv
    rw [ZMod.val_zero, Nat.gcd_zero_left] at hg
    exact hp.out.ne_one hg
  · intro hv
    have h1 : v.val ≠ 0 := fun h => hv ((ZMod.val_eq_zero v).mp h)
    have h2 : ¬ p ∣ v.val :=
      Nat.not_dvd_of_pos_of_lt (Nat.pos_of_ne_zero h1) (ZMod.val_lt v)
    exact ((Nat.Prime.coprime_iff_not_dvd hp.out).mpr h2).symm

/-- `List.prod` version of `mul_inv` in a `DivisionCommMonoid` (such as `ZMod p`
for prime `p`, where `0⁻¹ = 0`). -/
theorem list_prod_inv_map {G : Type} [DivisionCommMonoid G] (L : List G) :
    L.prod⁻¹ = (L.map fun x => x⁻¹).prod := by
  induction L with
  | nil => simp
  | cons a l ih => rw [List.prod_cons, mul_inv, ih, List.map_cons, List.prod_cons]

/-- Casting an integer list product into `ZMod p` elementwise. -/
theorem int_cast_list_prod (p : ℕ) (L : List ℤ) :
    ((L.prod : ℤ) : ZMod p) = (L.map fun z : ℤ => (z : ZMod p)).prod := by
  simpa using map_list_prod (Int.castRingHom (ZMod p)) L

/-- Characterisation of `pvss.__lagrange` for prime `p`: failure is equivalent to a
mod-`p` collision among declared indices, and on success the result is the
elementwise product `Π_{j ≠ i} j · (j - i)⁻¹` in `ZMod p`. -/
theorem lagrange_spec_aux (p : ℕ) [hp : Fact p.Prime] (i : ℤ)
    (index_list : List ℤ) :
    (pvss.lagrange p i index_list = none ↔
      ∃ j ∈ index_list, j ≠ i ∧ (j : ZMod p) = (i : ZMod p)) ∧
    ((∀ j ∈ index_list, j ≠ i → (j : ZMod p) ≠ (i : ZMod p)) →
      pvss.lagrange p i index_list =
        some (((index_list.filter fun j => j ≠ i).map fun j : ℤ =>
          (j : ZMod p) * ((j : ZMod p) - (i : ZMod p))⁻¹).prod)) := by
  have hlag : pvss.lagrange p i index_list =
      (if Nat.gcd ((((((index_list.filter fun j => j ≠ i).map fun j => j - i).prod
            : ℤ) : ZMod p)).val) p = 1 then
        some ((((index_list.filter fun j => j ≠ i).prod : ℤ) : ZMod p) *
          (((((index_list.filter fun j => j ≠ i).map fun j => j - i).prod
            : ℤ) : ZMod p))⁻¹)
      else none) := rfl
  have hBzero : ((((index_list.filter fun j => j ≠ i).map fun j => j - i).prod
        : ℤ) : ZMod p) = 0 ↔
      ∃ j ∈ index_list, j ≠ i ∧ (j : ZMod p) = (i : ZMod p) := by
    rw [int_cast_list_prod, List.map_map, List.prod_eq_zero_iff]
    constructor
    · intro hmem
      obtain ⟨j, hj, hj0⟩ := List.mem_map.mp hmem
      refine ⟨j, (List.mem_filter.mp hj).1, ?_, ?_⟩
      · have := (List.mem_filter.mp hj).2
        simpa using this
      · have h0 : ((j - i : ℤ) : ZMod p) = 0 := hj0
        rw [Int.cast_sub] at h0
        exact sub_eq_zero.mp h0
    · rintro ⟨j, hj, hne, heq⟩
      refine List.mem_map.mpr ⟨j, ?_, ?_⟩
      · exact List.mem_filter.mpr ⟨hj, by simpa using hne⟩
      · show ((j - i : ℤ) : ZMod p) = 0
        rw [Int.cast_sub]
        exact sub_eq_zero.mpr heq
  have hiff : Nat.gcd ((((((index_list.filter fun j => j ≠ i).map fun j => j - i).prod
        : ℤ) : ZMod p)).val) p = 1 ↔
      ¬ ∃ j ∈ index_list, j ≠ i ∧ (j : ZMod p) = (i : ZMod p) := by
    rw [gcd_val_prime_eq_one_iff, Ne, hBzero]
  constructor
  · constructor
    · intro hnone
      by_contra hnex
      rw [hlag, if_pos (hiff.mpr hnex)] at hnone
      cases hnone
    · intro hex
      rw [hlag, if_neg]
      rw [hiff]
      exact not_not_intro hex
  · intro hall
    have hnex : ¬ ∃ j ∈ index_list, j ≠ i ∧ (j : ZMod p) = (i : ZMod p) := by
      rintro ⟨j, hj, hne, heq⟩
      exact hall j hj hne heq
    rw [hlag, if_pos (hiff.mpr hnex)]
    congr 1
    rw [int_cast_list_prod, int_cast_list_prod, List.map_map, list_prod_inv_map,
      List.map_map, ← List.prod_map_mul]
    apply congrArg List.prod
    apply List.map_congr_left
    intro x _
    show (x : ZMod p) * ((x - i : ℤ) : ZMod p)⁻¹ =
      (x : ZMod p) * ((x : ZMod p) - (i : ZMod p))⁻¹
    rw [Int.cast_sub]

/-- Claim C8: for prime `p`, `pvss.__lagrange(i, index_list, p)` fails (raises
`ReconstructionError` via `mod_inverse`) exactly when some declared index `j ≠ i` in
the list satisfies `(j - i) ≡ 0 mod p`, and otherwise returns the product
`Π_{j ∈ index_list, j ≠ i} j · (j - i)⁻¹ mod p`. -/
theorem lagrange_coefficient_spec (p : ℕ) [hp : Fact p.Prime] (i : ℤ)
    (index_list : List ℤ) :
    (pvss.lagrange p i index_list = none ↔
      ∃ j ∈ index_list, j ≠ i ∧ (j : ZMod p) = (i : ZMod p)) ∧
    ((∀ j ∈ index_list, j ≠ i → (j : ZMod p) ≠ (i : ZMod p)) →
      pvss.lagrange p i index_list =
        some (((index_list.filter fun j => j ≠ i).map fun j : ℤ =>
          (j : ZMod p) * ((j : ZMod p) - (i : ZMod p))⁻¹).prod)) :=
  lagrange_spec_aux p i index_list

/-- Witness for C8: with `p = 5` the declared indices `6 ≠ 1` collide mod `5`, so the
Lagrange coefficient computation for `i = 1` over `[1, 2, 6]` fails. -/
theorem lagrange_coefficient_spec_witness :
    pvss.lagrange 5 1 [1, 2, 6] = none := by
  have hmem : (6 : ℤ) ∈ [(1 : ℤ), 2, 6] := by decide
  have hne : (6 : ℤ) ≠ 1 := by decide
  have heq : ((6 : ℤ) : ZMod 5) = ((1 : ℤ) : ZMod 5) := by decide
  have h5 : Fact (Nat.Prime 5) := ⟨by norm_num⟩
  exact (lagrange_coefficient_spec 5 1 [1, 2, 6]).1.mpr ⟨6, hmem, hne, heq⟩

/-! ### Claim C1 -/

/-- The polynomial over `ZMod p` whose coefficient list is `px` (the mathematical
object `pvss.gen_polynomial` represents and `pvss.__calc_share` evaluates); a
proof-side auxiliary, not a translation of source code. -/
noncomputable def listPoly (p : ℕ) (px : List (ZMod p)) : Polynomial (ZMod p) :=
  ∑ j ∈ Finset.range px.length, Polynomial.C (px.getD j 0) * Polynomial.X ^ j

theorem listPoly_eval (p : ℕ) (px : List (ZMod p)) (z : ZMod p) :
    (listPoly p px).eval z = ∑ j ∈ Finset.range px.length, px.getD j 0 * z ^ j := by
  rw [listPoly, Polynomial.eval_finset_sum]
  refine Finset.sum_congr rfl fun j _ => ?_
  simp

theorem listPoly_eval_zero (p : ℕ) (px : List (ZMod p)) :
    (listPoly p px).eval 0 = px.getD 0 0 := by
  rw [listPoly_eval, Finset.sum_eq_single 0]
  · simp
  · intro j _ hj0
    simp [zero_pow hj0]
  · intro h0
    have : px.length = 0 := by
      by_contra hne
      exact h0 (Finset.mem_range.mpr (Nat.pos_of_ne_zero hne))
    rw [List.length_eq_zero] at this
    subst this
    simp

theorem listPoly_degree_lt (p : ℕ) (px : List (ZMod p)) :
    (listPoly p px).degree < (px.length : WithBot ℕ) := by
  apply lt_of_le_of_lt (Polynomial.degree_sum_le _ _)
  rw [Finset.sup_lt_iff (WithBot.bot_lt_coe _)]
  intro j hj
  apply lt_of_le_of_lt (Polynomial.degree_C_mul_X_pow_le _ _)
  exact_mod_cast Finset.mem_range.mp hj

theorem calc_share_eq_eval (p : ℕ) (px : List (ZMod p)) (x : ℤ) :
    pvss.calc_share p px x = (listPoly p px).eval ((x : ZMod p)) := by
  rw [listPoly_eval]
  unfold pvss.calc_share
  rw [sum_map_zip_range px (0 : ZMod p) fun a j => a * ((x ^ j : ℤ) : ZMod p)]
  refine Finset.sum_congr rfl fun j _ => ?_
  push_cast
  rfl

/-- Lagrange interpolation at `0`, in the exact shape produced by `pvss.__lagrange`:
for a polynomial of degree below the number of interpolation indices (a list of
integers with pairwise distinct casts mod `p`),
`Σ_x (Π_{j ≠ x} j·(j-x)⁻¹) · f(x) = f(0)`. -/
theorem lagrange_sum_eval_zero (p : ℕ) [Fact p.Prime] (f : Polynomial (ZMod p))
    (idx : List ℤ) (hnd : (idx.map fun j : ℤ => (j : ZMod p)).Nodup)
    (hdeg : f.degree < (idx.length : WithBot ℕ)) :
    (idx.map fun x : ℤ =>
      (((idx.filter fun j => j ≠ x).map fun j : ℤ =>
        (j : ZMod p) * ((j : ZMod p) - (x : ZMod p))⁻¹).prod) *
        f.eval ((x : ZMod p))).sum = f.eval 0 := by
  classical
  have hndZ : idx.Nodup := List.Nodup.of_map _ hnd
  have hinj : ∀ x ∈ idx, ∀ y ∈ idx, (x : ZMod p) = (y : ZMod p) → x = y :=
    List.inj_on_of_nodup_map hnd
  have hvs : Set.InjOn (fun j : ℤ => (j : ZMod p)) ↑idx.toFinset := by
    intro a ha b hb hab
    exact hinj a (List.mem_toFinset.mp ha) b (List.mem_toFinset.mp hb) hab
  have hcard : idx.toFinset.card = idx.length := List.toFinset_card_of_nodup hndZ
  have hdeg' : f.degree < idx.toFinset.card := by
    rw [hcard]
    exact_mod_cast hdeg
  have hinterp := Lagrange.eq_interpolate (v := fun j : ℤ => (j : ZMod p)) hvs hdeg'
  have heval0 : f.eval 0 = ∑ x ∈ idx.toFinset, f.eval ((x : ZMod p)) *
      (Lagrange.basis idx.toFinset (fun j : ℤ => (j : ZMod p)) x).eval 0 := by
    conv_lhs => rw [hinterp]
    rw [Lagrange.interpolate_apply, Polynomial.eval_finset_sum]
    refine Finset.sum_congr rfl fun x _ => ?_
    rw [Polynomial.eval_mul, Polynomial.eval_C]
  have hbasis : ∀ x ∈ idx.toFinset,
      (Lagrange.basis idx.toFinset (fun j : ℤ => (j : ZMod p)) x).eval 0 =
      ((idx.filter fun j => j ≠ x).map fun j : ℤ =>
        (j : ZMod p) * ((j : ZMod p) - (x : ZMod p))⁻¹).prod := by
    intro x _
    have herase : (idx.filter fun j => j ≠ x).toFinset = idx.toFinset.erase x := by
      ext a
      simp only [List.mem_toFinset, List.mem_filter, Finset.mem_erase,
        decide_eq_true_eq]
      exact and_comm
    rw [Lagrange.basis, Polynomial.eval_prod, ← herase,
      List.prod_toFinset _ (hndZ.filter _)]
    refine congrArg List.prod (List.map_congr_left fun j _ => ?_)
    rw [Lagrange.basisDivisor]
    simp only [Polynomial.eval_mul, Polynomial.eval_C, Polynomial.eval_sub,
      Polynomial.eval_X]
    rw [zero_sub, ← neg_sub ((j : ZMod p)) ((x : ZMod p)), inv_neg, neg_mul_neg,
      mul_comm]
  rw [← List.sum_toFinset _ hndZ, heval0]
  refine Finset.sum_congr rfl fun x hx => ?_
  rw [hbasis x hx, mul_comm]

/-- Evaluating `List.mapM` over `Option` when every element succeeds. -/
theorem list_mapM_option_eq_some {α β : Type} (g : α → Option β) (gv : α → β)
    (l : List α) (h : ∀ a ∈ l, g a = some (gv a)) :
    l.mapM g = some (l.map gv) := by
  induction l with
  | nil => rfl
  | cons a l ih =>
    rw [List.mapM_cons, h a (List.mem_cons_self a l),
      ih fun b hb => h b (List.mem_cons_of_mem a hb), List.map_cons]
    rfl

/-- Claim C1 counterexample: the claim as stated fails for small primes.  Over the
prime `p = 3`, with threshold `t = 2 ≥ 1`, `n = 4 > t`, secret `m = 0`, polynomial
`gen_polynomial` = `[0, 1]` (sampled randomness `[1]`, length `t - 1`), group
`ZMod 3` and generator `G = 1`: the 2-element subset `{1, 4}` of distinct indices
drawn from `[1, n]` collides mod 3 (`4 ≡ 1`), `__lagrange`'s `mod_inverse` raises,
and `decode` returns nothing rather than `m·G`. -/
theorem decode_fails_for_indices_congruent_mod_p :
    pvss.decode 3 (([1, 4] : List ℤ).map fun j : ℤ =>
        pvss.calc_share 3 (pvss.gen_polynomial 3 0 [1]) j • (1 : ZMod 3)) [1, 4]
      ≠ some ((0 : ZMod 3) • (1 : ZMod 3)) := by decide

/-- Claim C1 (amended): for every prime `p`, generator `G`, threshold `t ≥ 1`,
`n > t`, secret `m`, and polynomial `gen_polynomial(t, m, p)`: for every `t`-element
list of distinct indices drawn from `[1, n]` *whose casts mod `p` are pairwise
distinct* (automatic whenever `n ≤ p`, in particular for cryptographic group
orders), `decode` applied to the honestly decrypted shares `S_i = share_i • G`
returns `some (m • G)` - the same group element for every such subset. -/
theorem decode_reconstructs_secret (p : ℕ) [Fact p.Prime] {M : Type}
    [AddCommGroup M] [Module (ZMod p) M] (G : M) (t n : ℕ) (ht : 1 ≤ t)
    (hn : t < n) (m : ZMod p) (px_rand : List (ZMod p))
    (hrand : px_rand.length = t - 1) (idx : List ℤ) (hlen : idx.length = t)
    (hrange : ∀ j ∈ idx, 1 ≤ j ∧ j ≤ (n : ℤ))
    (hdist : (idx.map fun j : ℤ => (j : ZMod p)).Nodup) :
    pvss.decode p (idx.map fun j : ℤ =>
        pvss.calc_share p (pvss.gen_polynomial p m px_rand) j • G) idx
      = some (m • G) := by
  have hndZ : idx.Nodup := List.Nodup.of_map _ hdist
  have hinj : ∀ x ∈ idx, ∀ y ∈ idx, (x : ZMod p) = (y : ZMod p) → x = y :=
    List.inj_on_of_nodup_map hdist
  have hpxlen : (pvss.gen_polynomial p m px_rand).length = t := by
    simp only [pvss.gen_polynomial, List.length_cons, hrand]
    omega
  unfold pvss.decode
  rw [if_pos (List.length_map _ _)]
  have hlagL : ∀ x ∈ idx, pvss.lagrange p x idx =
      some (((idx.filter fun j => j ≠ x).map fun j : ℤ =>
        (j : ZMod p) * ((j : ZMod p) - (x : ZMod p))⁻¹).prod) := by
    intro x hx
    refine (lagrange_spec_aux p x idx).2 fun j hj hne heq => ?_
    exact hne (hinj j hj x hx heq)
  rw [list_mapM_option_eq_some (fun i => pvss.lagrange p i idx)
    (fun x => ((idx.filter fun j => j ≠ x).map fun j : ℤ =>
      (j : ZMod p) * ((j : ZMod p) - (x : ZMod p))⁻¹).prod) idx hlagL]
  rw [Option.map_some']
  refine congrArg some ?_
  rw [List.zipWith_map, List.zipWith_same]
  have hpt : ∀ a ∈ idx,
      (((idx.filter fun j => j ≠ a).map fun j : ℤ =>
        (j : ZMod p) * ((j : ZMod p) - (a : ZMod p))⁻¹).prod) •
        (pvss.calc_share p (pvss.gen_polynomial p m px_rand) a • G) =
      ((((idx.filter fun j => j ≠ a).map fun j : ℤ =>
        (j : ZMod p) * ((j : ZMod p) - (a : ZMod p))⁻¹).prod) *
        (listPoly p (pvss.gen_polynomial p m px_rand)).eval ((a : ZMod p))) • G := by
    intro a _
    rw [smul_smul, calc_share_eq_eval]
  rw [List.map_congr_left hpt, sum_map_smul_right idx
    (fun a => (((idx.filter fun j => j ≠ a).map fun j : ℤ =>
      (j : ZMod p) * ((j : ZMod p) - (a : ZMod p))⁻¹).prod) *
      (listPoly p (pvss.gen_polynomial p m px_rand)).eval ((a : ZMod p))) G]
  have hdeg : (listPoly p (pvss.gen_polynomial p m px_rand)).degree <
      (idx.length : WithBot ℕ) := by
    have := listPoly_degree_lt p (pvss.gen_polynomial p m px_rand)
    rwa [hpxlen, ← hlen] at this
  rw [lagrange_sum_eval_zero p (listPoly p (pvss.gen_polynomial p m px_rand))
    idx hdist hdeg]
  rw [listPoly_eval_zero]
  rfl

/-- Witness for the amended C1 at `p = 5`, `t = 2`, `n = 3`, secret `m = 2`,
randomness `[1]` (polynomial `2 + x`), group `ZMod 5`, `G = 1`, subset `{1, 3}`. -/
theorem decode_reconstructs_secret_witness :
    pvss.decode 5 (([1, 3] : List ℤ).map fun j : ℤ =>
        pvss.calc_share 5 (pvss.gen_polynomial 5 2 [1]) j • (1 : ZMod 5)) [1, 3]
      = some ((2 : ZMod 5) • (1 : ZMod 5)) := by
  have h1 : (([1, 3] : List ℤ).map fun j : ℤ => (j : ZMod 5)).Nodup := by decide
  have h2 : ∀ j ∈ ([1, 3] : List ℤ), 1 ≤ j ∧ j ≤ ((3 : ℕ) : ℤ) := by decide
  have h5 : Fact (Nat.Prime 5) := ⟨by norm_num⟩
  exact decode_reconstructs_secret 5 (M := ZMod 5) 1 2 3 (by norm_num)
    (by norm_num) 2 [1] rfl [1, 3] rfl h2 h1
